import Mathlib

/-!
Verification of the event-matching and comparison/aggregation core of the
EyeTrackingAlgorithms repository.

The Python source is shallowly embedded: events are records over rational
times, pandas data frames become explicit row/column structures, Python
dictionaries become insertion-ordered association lists, and functions that
may raise become `Except`-valued functions.  `float` arithmetic is modelled
over `ℚ` (none of the verified claims depends on rounding), and NaN cells
are modelled as `Option` values with `none` standing for NaN.
-/

/-- Closed set of event labels (spec, section 3): fixation, saccade, blink,
PSO, smooth pursuit, undefined. -/
inductive EventLabel where
  | fixation
  | saccade
  | blink
  | pso
  | smoothPursuit
  | undefined
  deriving DecidableEq, Repr

/-- Modelled from the spec: an Event is an immutable half-open time interval
with a label (`BaseEvent.py` is not under `src/`; only its callers are).
Geometric attributes are irrelevant to the claims and omitted. -/
structure Event where
  label : EventLabel
  start_time : ℚ
  end_time : ℚ
  deriving DecidableEq, Repr

/-- Modelled from the spec: derived `duration = end_time - start_time`. -/
def Event.duration (e : Event) : ℚ := e.end_time - e.start_time

/-- Modelled from the spec: `overlap_time(other)` is the length of the
intersection of the two half-open time intervals. -/
def Event.overlap_time (e other : Event) : ℚ :=
  max 0 (min e.end_time other.end_time - max e.start_time other.start_time)

/-- Modelled from the spec: intersection-over-union of the two time
intervals (intersection length divided by union length). -/
def Event.intersection_over_union (e other : Event) : ℚ :=
  e.overlap_time other / (e.duration + other.duration - e.overlap_time other)

/-- Translated from `_find_matches` (src/GazeEvents/EventMatching.py,
lines 150-176): restrict to same-label predictions when cross-matching is
disallowed, then keep the predictions passing all four thresholds. -/
def find_matches (gt : Event) (predictions : List Event) (allow_cross_matching : Bool)
    (min_overlap min_iou max_onset_latency max_offset_latency : ℚ) : List Event :=
  let ps := if allow_cross_matching then predictions
    else predictions.filter (fun p => decide (p.label = gt.label))
  ps.filter (fun p =>
    decide (gt.overlap_time p ≥ min_overlap) &&
    decide (gt.intersection_over_union p ≥ min_iou) &&
    decide (|p.start_time - gt.start_time| ≤ max_onset_latency) &&
    decide (|p.end_time - gt.end_time| ≤ max_offset_latency))

/-- Sample ground-truth saccade used by concrete witnesses. -/
def gEx : Event := ⟨EventLabel.saccade, 0, 10⟩

/-- Sample prediction overlapping `gEx`. -/
def pEx1 : Event := ⟨EventLabel.saccade, 2, 8⟩

/-- Sample prediction with large onset latency relative to `gEx`. -/
def pEx2 : Event := ⟨EventLabel.saccade, 9, 20⟩

/-- C1: for every ground-truth event and prediction list, the candidate
filter returns a sublist of the predictions (hence preserves their order),
every returned prediction satisfies all four threshold predicates, and when
cross-matching is disallowed it also shares the ground-truth label. -/
theorem C1_find_matches_sound (gt : Event) (P : List Event) (allow : Bool)
    (min_overlap min_iou max_onset_latency max_offset_latency : ℚ) :
    (find_matches gt P allow min_overlap min_iou max_onset_latency max_offset_latency).Sublist P ∧
    ∀ p ∈ find_matches gt P allow min_overlap min_iou max_onset_latency max_offset_latency,
      gt.overlap_time p ≥ min_overlap ∧
      gt.intersection_over_union p ≥ min_iou ∧
      |p.start_time - gt.start_time| ≤ max_onset_latency ∧
      |p.end_time - gt.end_time| ≤ max_offset_latency ∧
      (allow = false → p.label = gt.label) := by
  constructor
  · cases allow with
    | true =>
        simp only [find_matches, if_true]
        exact List.filter_sublist P
    | false =>
        simp only [find_matches, Bool.false_eq_true, if_false]
        exact List.Sublist.trans (List.filter_sublist _) (List.filter_sublist P)
  · intro p hp
    cases allow with
    | true =>
        simp only [find_matches, if_pos, List.mem_filter, Bool.and_eq_true,
          decide_eq_true_eq] at hp
        obtain ⟨-, ⟨⟨hA, hB⟩, hC⟩, hD⟩ := hp
        exact ⟨hA, hB, hC, hD, by intro h; cases h⟩
    | false =>
        simp only [find_matches, if_neg, Bool.false_eq_true, not_false_iff,
          List.mem_filter, Bool.and_eq_true, decide_eq_true_eq] at hp
        obtain ⟨⟨-, hL⟩, ⟨⟨hA, hB⟩, hC⟩, hD⟩ := hp
        exact ⟨hA, hB, hC, hD, fun _ => hL⟩

/-- C1 witness: the soundness statement instantiated at a concrete
ground-truth event, prediction list and threshold set. -/
theorem C1_find_matches_sound_witness :
    (find_matches gEx [pEx1, pEx2] false 1 0 10 10).Sublist [pEx1, pEx2] ∧
    ∀ p ∈ find_matches gEx [pEx1, pEx2] false 1 0 10 10,
      gEx.overlap_time p ≥ 1 ∧
      gEx.intersection_over_union p ≥ 0 ∧
      |p.start_time - gEx.start_time| ≤ 10 ∧
      |p.end_time - gEx.end_time| ≤ 10 ∧
      (false = false → p.label = gEx.label) :=
  C1_find_matches_sound gEx [pEx1, pEx2] false 1 0 10 10

/-- Python builtin `max(iterable, key=f)` over the nonempty list `x :: l`:
the fold keeps the current optimum and replaces it only on a strictly larger
key, so the first element attaining the maximum wins. -/
def py_max_by {α : Type} (f : α → ℚ) (x : α) (l : List α) : α :=
  l.foldl (fun acc y => if f acc < f y then y else acc) x

/-- Python builtin `min(iterable, key=f)` over the nonempty list `x :: l`:
replaces the current optimum only on a strictly smaller key. -/
def py_min_by {α : Type} (f : α → ℚ) (x : α) (l : List α) : α :=
  l.foldl (fun acc y => if f y < f acc then y else acc) x

/-- Behaviour of the `py_max_by` fold: either the accumulator survives and
dominates every key in the list, or the result is a list element that is
strictly larger than the accumulator and than every earlier list element,
and at least as large as every list element. -/
theorem py_max_by_spec {α : Type} (f : α → ℚ) :
    ∀ (l : List α) (x : α),
    (py_max_by f x l = x ∧ ∀ y ∈ l, f y ≤ f x) ∨
    (∃ i, ∃ hi : i < l.length, py_max_by f x l = l.get ⟨i, hi⟩ ∧
      f x < f (py_max_by f x l) ∧
      (∀ j, ∀ hj : j < l.length, j < i → f (l.get ⟨j, hj⟩) < f (py_max_by f x l)) ∧
      ∀ y ∈ l, f y ≤ f (py_max_by f x l)) := by
  intro l
  induction l with
  | nil =>
      intro x
      exact Or.inl ⟨rfl, by intro y hy; cases hy⟩
  | cons y ys ih =>
      intro x
      have hstep : py_max_by f x (y :: ys) = py_max_by f (if f x < f y then y else x) ys := rfl
      by_cases hxy : f x < f y
      · rw [hstep, if_pos hxy]
        rcases ih y with ⟨heq, hall⟩ | ⟨i, hi, heq, hacc, hbefore, hall⟩
        · refine Or.inr ⟨0, by simp, ?_, ?_, ?_, ?_⟩
          · simpa [List.get] using heq
          · rw [heq]; exact hxy
          · intro j hj hj0; cases hj0
          · intro z hz
            rw [heq]
            rcases List.mem_cons.mp hz with rfl | hz
            · exact le_refl _
            · exact hall z hz
        · refine Or.inr ⟨i + 1, by simpa using Nat.succ_lt_succ hi, ?_, ?_, ?_, ?_⟩
          · simpa [List.get] using heq
          · exact lt_trans hxy hacc
          · intro j hj hji
            cases j with
            | zero => simpa [List.get] using hacc
            | succ k =>
                have hk : k < ys.length := Nat.lt_of_succ_lt_succ hj
                have := hbefore k hk (Nat.lt_of_succ_lt_succ hji)
                simpa [List.get] using this
          · intro z hz
            rcases List.mem_cons.mp hz with rfl | hz
            · exact le_of_lt hacc
            · exact hall z hz
      · rw [hstep, if_neg hxy]
        have hyx : f y ≤ f x := le_of_not_lt hxy
        rcases ih x with ⟨heq, hall⟩ | ⟨i, hi, heq, hacc, hbefore, hall⟩
        · refine Or.inl ⟨heq, ?_⟩
          intro z hz
          rcases List.mem_cons.mp hz with rfl | hz
          · exact hyx
          · exact hall z hz
        · refine Or.inr ⟨i + 1, by simpa using Nat.succ_lt_succ hi, ?_, ?_, ?_, ?_⟩
          · simpa [List.get] using heq
          · exact hacc
          · intro j hj hji
            cases j with
            | zero =>
                have : f y ≤ f x := hyx
                simpa [List.get] using lt_of_le_of_lt this hacc
            | succ k =>
                have hk : k < ys.length := Nat.lt_of_succ_lt_succ hj
                have := hbefore k hk (Nat.lt_of_succ_lt_succ hji)
                simpa [List.get] using this
          · intro z hz
            rcases List.mem_cons.mp hz with rfl | hz
            · exact le_of_lt (lt_of_le_of_lt hyx hacc)
            · exact hall z hz

/-- First-occurrence argmax characterisation of `py_max_by` over a nonempty
list `a :: l`: it returns an element attaining the maximum key, and every
earlier element has a strictly smaller key. -/
theorem py_max_by_first {α : Type} (f : α → ℚ) (a : α) (l : List α) :
    ∃ i, ∃ hi : i < (a :: l).length, py_max_by f a l = (a :: l).get ⟨i, hi⟩ ∧
      (∀ j, ∀ hj : j < (a :: l).length, j < i →
        f ((a :: l).get ⟨j, hj⟩) < f (py_max_by f a l)) ∧
      ∀ y ∈ a :: l, f y ≤ f (py_max_by f a l) := by
  rcases py_max_by_spec f l a with ⟨heq, hall⟩ | ⟨i, hi, heq, hacc, hbefore, hall⟩
  · refine ⟨0, by simp, by simpa [List.get] using heq, ?_, ?_⟩
    · intro j hj hj0; cases hj0
    · intro z hz
      rw [heq]
      rcases List.mem_cons.mp hz with rfl | hz
      · exact le_refl _
      · exact hall z hz
  · refine ⟨i + 1, by simpa using Nat.succ_lt_succ hi, by simpa [List.get] using heq, ?_, ?_⟩
    · intro j hj hji
      cases j with
      | zero => simpa [List.get] using hacc
      | succ k =>
          have hk : k < l.length := Nat.lt_of_succ_lt_succ hj
          have := hbefore k hk (Nat.lt_of_succ_lt_succ hji)
          simpa [List.get] using this
    · intro z hz
      rcases List.mem_cons.mp hz with rfl | hz
      · exact le_of_lt hacc
      · exact hall z hz

/-- The Python `min` fold is the Python `max` fold on negated keys. -/
theorem py_min_by_eq_neg_max {α : Type} (f : α → ℚ) (x : α) (l : List α) :
    py_min_by f x l = py_max_by (fun y => -(f y)) x l := by
  induction l generalizing x with
  | nil => rfl
  | cons y ys ih =>
      show py_min_by f (if f y < f x then y else x) ys =
        py_max_by (fun z => -(f z)) (if -(f x) < -(f y) then y else x) ys
      simp only [neg_lt_neg_iff]
      exact ih _

/-- First-occurrence argmin characterisation of `py_min_by` over a nonempty
list `a :: l`. -/
theorem py_min_by_first {α : Type} (f : α → ℚ) (a : α) (l : List α) :
    ∃ i, ∃ hi : i < (a :: l).length, py_min_by f a l = (a :: l).get ⟨i, hi⟩ ∧
      (∀ j, ∀ hj : j < (a :: l).length, j < i →
        f (py_min_by f a l) < f ((a :: l).get ⟨j, hj⟩)) ∧
      ∀ y ∈ a :: l, f (py_min_by f a l) ≤ f y := by
  obtain ⟨i, hi, heq, hbefore, hall⟩ := py_max_by_first (fun y => -(f y)) a l
  rw [← py_min_by_eq_neg_max] at heq hbefore hall
  refine ⟨i, hi, heq, ?_, ?_⟩
  · intro j hj hji
    have := hbefore j hj hji
    exact lt_of_neg_lt_neg this
  · intro z hz
    have := hall z hz
    exact le_of_neg_le_neg this

/-- Charwise lowercasing, the effect of Python `str.lower` (all names used
by the dispatch code are ASCII). -/
def lower_chars (l : List Char) : List Char := l.map Char.toLower

/-- Python `str.replace` with a single-character pattern and replacement. -/
def replace_char (a b : Char) (l : List Char) : List Char :=
  l.map (fun c => if c = a then b else c)

/-- Python `str.strip`: drop whitespace from both ends. -/
def trim_chars (l : List Char) : List Char :=
  ((l.dropWhile Char.isWhitespace).reverse.dropWhile Char.isWhitespace).reverse

/-- Translated from `_choose_match` line 201:
`reduction.lower().replace("_", " ").strip()`. -/
def normalize_reduction (s : String) : String :=
  String.mk (trim_chars (replace_char '_' ' ' (lower_chars s.data)))

/-- The eight reduction-policy names accepted by `_choose_match`. -/
def valid_reductions : List String :=
  ["all", "first", "last", "longest", "max overlap", "iou",
   "onset latency", "offset latency"]

/-- Translated from `_choose_match` (src/GazeEvents/EventMatching.py,
lines 179-222).  The `NotImplementedError` raised on an unknown reduction
name becomes an `Except.error`; note the 0- and 1-candidate branches return
before the reduction name is ever inspected. -/
def choose_match (gt : Event) (matched : List Event) (reduction : String) :
    Except String (List Event) :=
  let red := normalize_reduction reduction
  match matched with
  | [] => .ok []
  | [m] => .ok [m]
  | a :: b :: t =>
    if red = "all" then .ok (a :: b :: t)
    else if red = "first" then .ok [py_min_by (fun e => e.start_time) a (b :: t)]
    else if red = "last" then .ok [py_max_by (fun e => e.start_time) a (b :: t)]
    else if red = "longest" then .ok [py_max_by (fun e => e.duration) a (b :: t)]
    else if red = "max overlap" then .ok [py_max_by (fun e => gt.overlap_time e) a (b :: t)]
    else if red = "iou" then
      .ok [py_max_by (fun e => gt.intersection_over_union e) a (b :: t)]
    else if red = "onset latency" then
      .ok [py_min_by (fun e => |e.start_time - gt.start_time|) a (b :: t)]
    else if red = "offset latency" then
      .ok [py_min_by (fun e => |e.end_time - gt.end_time|) a (b :: t)]
    else .error "Reduction function not implemented"

/-- Element of `l` attaining the maximal value of `f`, with every earlier
element strictly below the maximum (first-occurrence tie-break). -/
def FirstArgmax (f : Event → ℚ) (l : List Event) (m : Event) : Prop :=
  ∃ i, ∃ hi : i < l.length, l.get ⟨i, hi⟩ = m ∧
    (∀ y ∈ l, f y ≤ f m) ∧
    ∀ j, ∀ hj : j < l.length, j < i → f (l.get ⟨j, hj⟩) < f m

/-- Element of `l` attaining the minimal value of `f`, with every earlier
element strictly above the minimum (first-occurrence tie-break). -/
def FirstArgmin (f : Event → ℚ) (l : List Event) (m : Event) : Prop :=
  ∃ i, ∃ hi : i < l.length, l.get ⟨i, hi⟩ = m ∧
    (∀ y ∈ l, f m ≤ f y) ∧
    ∀ j, ∀ hj : j < l.length, j < i → f m < f (l.get ⟨j, hj⟩)

/-- Packaging of `py_max_by_first` into `FirstArgmax` form. -/
theorem py_max_by_firstArgmax (f : Event → ℚ) (a : Event) (l : List Event) :
    FirstArgmax f (a :: l) (py_max_by f a l) := by
  obtain ⟨i, hi, heq, hbefore, hall⟩ := py_max_by_first f a l
  exact ⟨i, hi, heq.symm, hall, hbefore⟩

/-- Packaging of `py_min_by_first` into `FirstArgmin` form. -/
theorem py_min_by_firstArgmin (f : Event → ℚ) (a : Event) (l : List Event) :
    FirstArgmin f (a :: l) (py_min_by f a l) := by
  obtain ⟨i, hi, heq, hbefore, hall⟩ := py_min_by_first f a l
  exact ⟨i, hi, heq.symm, hall, hbefore⟩

/-- C2: on a candidate list with at least two elements, each named policy
selects what the spec says it does: `all` keeps every candidate; `first`,
`last`, `longest`, `max overlap`, `iou`, `onset latency` and `offset
latency` pick the first-occurrence optimiser of the associated key. -/
theorem C2_choose_match_policies (gt a b : Event) (t : List Event) :
    choose_match gt (a :: b :: t) "all" = .ok (a :: b :: t) ∧
    (∃ m, choose_match gt (a :: b :: t) "first" = .ok [m] ∧
      FirstArgmin (fun e => e.start_time) (a :: b :: t) m) ∧
    (∃ m, choose_match gt (a :: b :: t) "last" = .ok [m] ∧
      FirstArgmax (fun e => e.start_time) (a :: b :: t) m) ∧
    (∃ m, choose_match gt (a :: b :: t) "longest" = .ok [m] ∧
      FirstArgmax (fun e => e.duration) (a :: b :: t) m) ∧
    (∃ m, choose_match gt (a :: b :: t) "max overlap" = .ok [m] ∧
      FirstArgmax (fun e => gt.overlap_time e) (a :: b :: t) m) ∧
    (∃ m, choose_match gt (a :: b :: t) "iou" = .ok [m] ∧
      FirstArgmax (fun e => gt.intersection_over_union e) (a :: b :: t) m) ∧
    (∃ m, choose_match gt (a :: b :: t) "onset latency" = .ok [m] ∧
      FirstArgmin (fun e => |e.start_time - gt.start_time|) (a :: b :: t) m) ∧
    (∃ m, choose_match gt (a :: b :: t) "offset latency" = .ok [m] ∧
      FirstArgmin (fun e => |e.end_time - gt.end_time|) (a :: b :: t) m) := by
  refine ⟨?_, ⟨_, ?_, py_min_by_firstArgmin _ a (b :: t)⟩, ⟨_, ?_, py_max_by_firstArgmax _ a (b :: t)⟩,
    ⟨_, ?_, py_max_by_firstArgmax _ a (b :: t)⟩, ⟨_, ?_, py_max_by_firstArgmax _ a (b :: t)⟩,
    ⟨_, ?_, py_max_by_firstArgmax _ a (b :: t)⟩, ⟨_, ?_, py_min_by_firstArgmin _ a (b :: t)⟩,
    ⟨_, ?_, py_min_by_firstArgmin _ a (b :: t)⟩⟩ <;>
  · simp only [choose_match]
    simp [show normalize_reduction "all" = "all" from by decide,
      show normalize_reduction "first" = "first" from by decide,
      show normalize_reduction "last" = "last" from by decide,
      show normalize_reduction "longest" = "longest" from by decide,
      show normalize_reduction "max overlap" = "max overlap" from by decide,
      show normalize_reduction "iou" = "iou" from by decide,
      show normalize_reduction "onset latency" = "onset latency" from by decide,
      show normalize_reduction "offset latency" = "offset latency" from by decide]

/-- C2 witness: the policy characterisation instantiated on concrete
candidates where the optima differ. -/
theorem C2_choose_match_policies_witness :
    choose_match gEx [pEx1, pEx2] "all" = .ok [pEx1, pEx2] ∧
    (∃ m, choose_match gEx [pEx1, pEx2] "first" = .ok [m] ∧
      FirstArgmin (fun e => e.start_time) [pEx1, pEx2] m) ∧
    (∃ m, choose_match gEx [pEx1, pEx2] "last" = .ok [m] ∧
      FirstArgmax (fun e => e.start_time) [pEx1, pEx2] m) ∧
    (∃ m, choose_match gEx [pEx1, pEx2] "longest" = .ok [m] ∧
      FirstArgmax (fun e => e.duration) [pEx1, pEx2] m) ∧
    (∃ m, choose_match gEx [pEx1, pEx2] "max overlap" = .ok [m] ∧
      FirstArgmax (fun e => gEx.overlap_time e) [pEx1, pEx2] m) ∧
    (∃ m, choose_match gEx [pEx1, pEx2] "iou" = .ok [m] ∧
      FirstArgmax (fun e => gEx.intersection_over_union e) [pEx1, pEx2] m) ∧
    (∃ m, choose_match gEx [pEx1, pEx2] "onset latency" = .ok [m] ∧
      FirstArgmin (fun e => |e.start_time - gEx.start_time|) [pEx1, pEx2] m) ∧
    (∃ m, choose_match gEx [pEx1, pEx2] "offset latency" = .ok [m] ∧
      FirstArgmin (fun e => |e.end_time - gEx.end_time|) [pEx1, pEx2] m) :=
  C2_choose_match_policies gEx pEx1 pEx2 []

/-- C3 counterexample: with an empty candidate list, `_choose_match` returns
the empty list before ever inspecting the reduction name, so an unknown
policy name does not raise. -/
theorem C3_counterexample_empty_candidates :
    normalize_reduction "bogus" ∉ valid_reductions ∧
    choose_match gEx [] "bogus" = .ok [] := by
  exact ⟨by decide, rfl⟩

/-- C3 (amended): on a candidate list with at least two elements, a policy
name whose normalization is outside the accepted set makes `_choose_match`
fail with the `NotImplementedError` configuration error. -/
theorem C3_choose_match_unknown_reduction (gt a b : Event) (t : List Event)
    (red : String) (h : normalize_reduction red ∉ valid_reductions) :
    choose_match gt (a :: b :: t) red = .error "Reduction function not implemented" := by
  simp only [valid_reductions, List.mem_cons, List.not_mem_nil, or_false, not_or] at h
  obtain ⟨h1, h2, h3, h4, h5, h6, h7, h8⟩ := h
  simp only [choose_match]
  rw [if_neg h1, if_neg h2, if_neg h3, if_neg h4, if_neg h5, if_neg h6,
    if_neg h7, if_neg h8]

/-- C3 witness: the amended statement applied at a concrete unknown name. -/
theorem C3_choose_match_unknown_reduction_witness :
    choose_match gEx [pEx1, pEx2] "bogus" = .error "Reduction function not implemented" :=
  C3_choose_match_unknown_reduction gEx pEx1 pEx2 [] "bogus" (by decide)

/-- Acceptance criteria of the candidate filter for one prediction: the
label restriction (active when cross-matching is disallowed) and the four
threshold predicates of `_find_matches`. -/
def MatchCriteria (gt p : Event) (allow : Bool)
    (min_overlap min_iou max_onset_latency max_offset_latency : ℚ) : Prop :=
  (allow = false → p.label = gt.label) ∧
  gt.overlap_time p ≥ min_overlap ∧
  gt.intersection_over_union p ≥ min_iou ∧
  |p.start_time - gt.start_time| ≤ max_onset_latency ∧
  |p.end_time - gt.end_time| ≤ max_offset_latency

/-- Membership in the candidate filter output is exactly membership in the
prediction list together with the acceptance criteria. -/
theorem mem_find_matches_iff (gt p : Event) (P : List Event) (allow : Bool)
    (mo mi mon moff : ℚ) :
    p ∈ find_matches gt P allow mo mi mon moff ↔
      p ∈ P ∧ MatchCriteria gt p allow mo mi mon moff := by
  cases allow with
  | true =>
      simp [find_matches, List.mem_filter, MatchCriteria]
      tauto
  | false =>
      simp [find_matches, List.mem_filter, MatchCriteria]
      tauto

/-- Translated from `generic_matching` (src/GazeEvents/EventMatching.py,
lines 105-147).  The Python dictionary of matches is modelled as an
insertion-ordered association list; a raised `NotImplementedError`
propagates as `Except.error`. -/
def generic_matching (ground_truth predictions : List Event) (allow_cross_matching : Bool)
    (min_overlap min_iou max_onset_latency max_offset_latency : ℚ) (reduction : String) :
    Except String (List (Event × List Event)) :=
  match ground_truth with
  | [] => .ok []
  | gt :: rest =>
    match choose_match gt (find_matches gt predictions allow_cross_matching
        min_overlap min_iou max_onset_latency max_offset_latency) reduction with
    | .error e => .error e
    | .ok p =>
      match generic_matching rest predictions allow_cross_matching
          min_overlap min_iou max_onset_latency max_offset_latency reduction with
      | .error e => .error e
      | .ok tail => .ok (if p.isEmpty then tail else (gt, p) :: tail)

/-- A successful `_choose_match` returns an empty selection exactly when the
candidate list was empty (both degenerate branches return before the policy
dispatch, and every policy branch returns a nonempty selection). -/
theorem choose_match_ok_nonempty (gt : Event) (ms : List Event) (red : String)
    (l : List Event) (h : choose_match gt ms red = .ok l) : l = [] ↔ ms = [] := by
  match ms with
  | [] =>
      simp only [choose_match] at h
      cases h
      simp
  | [m] =>
      simp only [choose_match] at h
      cases h
      simp
  | a :: b :: t =>
      simp only [choose_match] at h
      repeat' split at h
      all_goals first
        | (injection h with h2; subst h2; simp)
        | (injection h)

/-- C4: whenever `generic_matching` succeeds, a ground-truth event appears
as a key of the returned mapping exactly when it occurs in the ground-truth
sequence and at least one prediction satisfies every active threshold (with
the label restriction when cross-matching is disallowed); moreover no key is
ever mapped to an empty selection. -/
theorem C4_generic_matching_keys (G P : List Event) (allow : Bool)
    (mo mi mon moff : ℚ) (red : String) (m : List (Event × List Event))
    (h : generic_matching G P allow mo mi mon moff red = .ok m) :
    (∀ g, (∃ l, (g, l) ∈ m) ↔
      (g ∈ G ∧ ∃ p ∈ P, MatchCriteria g p allow mo mi mon moff)) ∧
    ∀ e ∈ m, e.2 ≠ [] := by
  induction G generalizing m with
  | nil =>
      simp only [generic_matching] at h
      injection h with h2
      subst h2
      simp
  | cons g0 rest ih =>
      simp only [generic_matching] at h
      cases hc : choose_match g0 (find_matches g0 P allow mo mi mon moff) red with
      | error e =>
          rw [hc] at h
          simp at h
      | ok p =>
          rw [hc] at h
          cases hg : generic_matching rest P allow mo mi mon moff red with
          | error e =>
              rw [hg] at h
              simp at h
          | ok tail =>
              rw [hg] at h
              simp only [List.isEmpty_eq_true] at h
              obtain ⟨ihA, ihB⟩ := ih tail hg
              by_cases hp : p = []
              · rw [if_pos hp] at h
                injection h with h2
                subst h2
                have hfm : find_matches g0 P allow mo mi mon moff = [] :=
                  (choose_match_ok_nonempty g0 _ red p hc).mp hp
                have hnoc : ¬ ∃ p2 ∈ P, MatchCriteria g0 p2 allow mo mi mon moff := by
                  rintro ⟨p2, hp2, hcrit⟩
                  have hmem := (mem_find_matches_iff g0 p2 P allow mo mi mon moff).mpr
                    ⟨hp2, hcrit⟩
                  rw [hfm] at hmem
                  cases hmem
                refine ⟨?_, ihB⟩
                intro g
                rw [ihA g]
                constructor
                · rintro ⟨hg', hex⟩
                  exact ⟨List.mem_cons_of_mem _ hg', hex⟩
                · rintro ⟨hgmem, hex⟩
                  rcases List.mem_cons.mp hgmem with rfl | hgr
                  · exact absurd hex hnoc
                  · exact ⟨hgr, hex⟩
              · rw [if_neg hp] at h
                injection h with h2
                have hfm_ne : find_matches g0 P allow mo mi mon moff ≠ [] := fun hnil =>
                  hp ((choose_match_ok_nonempty g0 _ red p hc).mpr hnil)
                have hex0 : ∃ p2 ∈ P, MatchCriteria g0 p2 allow mo mi mon moff := by
                  rcases List.exists_mem_of_ne_nil _ hfm_ne with ⟨p2, hp2⟩
                  rcases (mem_find_matches_iff g0 p2 P allow mo mi mon moff).mp hp2 with
                    ⟨hP, hcrit⟩
                  exact ⟨p2, hP, hcrit⟩
                subst h2
                refine ⟨?_, ?_⟩
                · intro g
                  constructor
                  · rintro ⟨l, hl⟩
                    rcases List.mem_cons.mp hl with heq | hl'
                    · have hg0 : g = g0 := congrArg Prod.fst heq
                      subst hg0
                      exact ⟨List.mem_cons_self _ _, hex0⟩
                    · rcases (ihA g).mp ⟨l, hl'⟩ with ⟨hgr, hex⟩
                      exact ⟨List.mem_cons_of_mem _ hgr, hex⟩
                  · rintro ⟨hgmem, hex⟩
                    rcases List.mem_cons.mp hgmem with rfl | hgr
                    · exact ⟨p, List.mem_cons_self _ _⟩
                    · rcases (ihA g).mpr ⟨hgr, hex⟩ with ⟨l, hl⟩
                      exact ⟨l, List.mem_cons_of_mem _ hl⟩
                · intro e he
                  rcases List.mem_cons.mp he with rfl | he'
                  · exact hp
                  · exact ihB e he'

/-- C4 witness: the key characterisation instantiated on a concrete
matching run whose result mapping is nonempty. -/
theorem C4_generic_matching_keys_witness :
    (∀ g, (∃ l, (g, l) ∈ [(gEx, [pEx1])]) ↔
      (g ∈ [gEx] ∧ ∃ p ∈ [pEx1], MatchCriteria g p true 0 0 10 10)) ∧
    ∀ e ∈ [(gEx, [pEx1])], e.2 ≠ [] :=
  C4_generic_matching_keys [gEx] [pEx1] true 0 0 10 10 "all" [(gEx, [pEx1])] (by
    norm_num [generic_matching, choose_match, find_matches, gEx, pEx1, Event.overlap_time,
      Event.intersection_over_union, Event.duration, List.filter, min_def, max_def, abs_le])

/-- Tabular grid of measurement lists (spec, section 3): rows keyed by an
index, named columns, and a cell holding a list of scalar measurements in
which `none` models a NaN entry. -/
structure DFrame where
  rows : List Nat
  cols : List String
  cellv : Nat → String → List (Option ℚ)

/-- Python `itertools.combinations(cols, 2)`: ordered enumeration of the
unordered pairs. -/
def combinations2 {α : Type} : List α → List (α × α)
  | [] => []
  | x :: xs => (xs.map (fun y => (x, y))) ++ combinations2 xs

/-- Translated from `apply_on_column_pairs` (src/Analysis/helpers.py, lines
18-22): unordered pairs when symmetric, otherwise the full cartesian product
with the diagonal filtered out. -/
def column_pairs (cols : List String) (is_symmetric : Bool) : List (String × String) :=
  if is_symmetric then combinations2 cols
  else (cols.flatMap (fun a => cols.map (fun b => (a, b)))).filter
    (fun p => decide (p.1 ≠ p.2))

/-- Python `pd.isnull(vals).all()`: every entry of the cell is NaN. -/
def all_null (l : List (Option ℚ)) : Bool := l.all (fun v => v.isNone)

/-- Translated from `apply_on_column_pairs` (src/Analysis/helpers.py, lines
27-33): a cell is `None` when either value list is empty or entirely NaN,
and the metric function is applied only otherwise. -/
def apply_cell {β : Type} (func : List (Option ℚ) → List (Option ℚ) → β)
    (v1 v2 : List (Option ℚ)) : Option β :=
  if v1.length = 0 ∨ all_null v1 = true then none
  else if v2.length = 0 ∨ all_null v2 = true then none
  else some (func v1 v2)

/-- Translated from `apply_on_column_pairs` (src/Analysis/helpers.py, lines
7-36): one output row per input row, one labelled cell per column pair. -/
def apply_on_column_pairs {β : Type} (data : DFrame)
    (func : List (Option ℚ) → List (Option ℚ) → β) (is_symmetric : Bool) :
    List (Nat × List ((String × String) × Option β)) :=
  data.rows.map (fun idx => (idx, (column_pairs data.cols is_symmetric).map
    (fun pr => (pr, apply_cell func (data.cellv idx pr.1) (data.cellv idx pr.2)))))

/-- C6: when either side of a column pair is empty or entirely NaN, the
comparator emits a null cell for that (row, column-pair), the cell value
does not depend on the metric function (the function is never applied), and
the batch still contains every row and every labelled cell. -/
theorem C6_apply_on_column_pairs_null_cell {β : Type} (data : DFrame)
    (f g : List (Option ℚ) → List (Option ℚ) → β) (sym : Bool) (idx : Nat)
    (pr : String × String) (hrow : idx ∈ data.rows)
    (hpr : pr ∈ column_pairs data.cols sym)
    (hdeg : data.cellv idx pr.1 = [] ∨ all_null (data.cellv idx pr.1) = true ∨
            data.cellv idx pr.2 = [] ∨ all_null (data.cellv idx pr.2) = true) :
    apply_cell f (data.cellv idx pr.1) (data.cellv idx pr.2) = none ∧
    apply_cell f (data.cellv idx pr.1) (data.cellv idx pr.2) =
      apply_cell g (data.cellv idx pr.1) (data.cellv idx pr.2) ∧
    (apply_on_column_pairs data f sym).map Prod.fst = data.rows ∧
    (idx, (column_pairs data.cols sym).map (fun p =>
      (p, apply_cell f (data.cellv idx p.1) (data.cellv idx p.2))))
        ∈ apply_on_column_pairs data f sym ∧
    (pr, (none : Option β)) ∈ (column_pairs data.cols sym).map (fun p =>
      (p, apply_cell f (data.cellv idx p.1) (data.cellv idx p.2))) := by
  have hnull : ∀ (h : List (Option ℚ) → List (Option ℚ) → β),
      apply_cell h (data.cellv idx pr.1) (data.cellv idx pr.2) = none := by
    intro h
    unfold apply_cell
    by_cases h1 : (data.cellv idx pr.1).length = 0 ∨ all_null (data.cellv idx pr.1) = true
    · rw [if_pos h1]
    · rw [if_neg h1]
      have h2 : (data.cellv idx pr.2).length = 0 ∨ all_null (data.cellv idx pr.2) = true := by
        rcases hdeg with hd | hd | hd | hd
        · exact absurd (Or.inl (by simp [hd])) h1
        · exact absurd (Or.inr hd) h1
        · exact Or.inl (by simp [hd])
        · exact Or.inr hd
      rw [if_pos h2]
  refine ⟨hnull f, (hnull f).trans (hnull g).symm, ?_, ?_, ?_⟩
  · simp [apply_on_column_pairs, List.map_map, Function.comp_def]
  · exact List.mem_map_of_mem _ hrow
  · have hmm := List.mem_map_of_mem
      (fun p => (p, apply_cell f (data.cellv idx p.1) (data.cellv idx p.2))) hpr
    simpa [hnull f] using hmm

/-- One-row grid from the spec's testable property: column A empty, column
B holding three measurements. -/
def df6 : DFrame :=
  ⟨[0], ["A", "B"], fun _ c => if c = "B" then [some 1, some 2, some 3] else []⟩

/-- Sample metric function over raw value lists. -/
def f6 : List (Option ℚ) → List (Option ℚ) → ℕ := fun v1 v2 => v1.length + v2.length

/-- Second sample metric function, used to exhibit func-independence. -/
def g6 : List (Option ℚ) → List (Option ℚ) → ℕ := fun _ _ => 0

/-- C6 witness: the null-cell property on the spec's concrete grid with
column A empty and column B equal to [1,2,3]. -/
theorem C6_apply_on_column_pairs_null_cell_witness :
    apply_cell f6 (df6.cellv 0 "A") (df6.cellv 0 "B") = none ∧
    apply_cell f6 (df6.cellv 0 "A") (df6.cellv 0 "B") =
      apply_cell g6 (df6.cellv 0 "A") (df6.cellv 0 "B") ∧
    (apply_on_column_pairs df6 f6 true).map Prod.fst = df6.rows ∧
    (0, (column_pairs df6.cols true).map (fun p =>
      (p, apply_cell f6 (df6.cellv 0 p.1) (df6.cellv 0 p.2))))
        ∈ apply_on_column_pairs df6 f6 true ∧
    (("A", "B"), (none : Option ℕ)) ∈ (column_pairs df6.cols true).map (fun p =>
      (p, apply_cell f6 (df6.cellv 0 p.1) (df6.cellv 0 p.2))) :=
  C6_apply_on_column_pairs_null_cell df6 f6 g6 true 0 ("A", "B")
    (by decide) (by decide) (Or.inl rfl)

/-- C10: with `is_symmetric = False` the comparator computes exactly the
ordered pairs of distinct columns: a pair is enumerated iff both components
are columns and they differ, the reverse of every enumerated pair is also
enumerated, no self-pair is ever emitted, and every output row is labelled
by exactly this pair list. -/
theorem C10_asymmetric_ordered_pairs {β : Type} (data : DFrame)
    (f : List (Option ℚ) → List (Option ℚ) → β) :
    (∀ a b : String, (a, b) ∈ column_pairs data.cols false ↔
      (a ∈ data.cols ∧ b ∈ data.cols ∧ a ≠ b)) ∧
    (∀ a b : String, (a, b) ∈ column_pairs data.cols false →
      (b, a) ∈ column_pairs data.cols false) ∧
    (∀ c : String, (c, c) ∉ column_pairs data.cols false) ∧
    ∀ e ∈ apply_on_column_pairs data f false,
      e.2.map Prod.fst = column_pairs data.cols false := by
  have hmem : ∀ a b : String, (a, b) ∈ column_pairs data.cols false ↔
      (a ∈ data.cols ∧ b ∈ data.cols ∧ a ≠ b) := by
    intro a b
    simp [column_pairs, List.mem_filter, List.mem_flatMap, List.mem_map]
    tauto
  refine ⟨hmem, ?_, ?_, ?_⟩
  · intro a b hab
    rcases (hmem a b).mp hab with ⟨ha, hb, hne⟩
    exact (hmem b a).mpr ⟨hb, ha, hne.symm⟩
  · intro c hc
    rcases (hmem c c).mp hc with ⟨-, -, hne⟩
    exact hne rfl
  · intro e he
    rcases List.mem_map.mp he with ⟨idx, -, rfl⟩
    simp [List.map_map, Function.comp_def]

/-- C10 witness: the ordered-pair characterisation instantiated on the
concrete two-column grid. -/
theorem C10_asymmetric_ordered_pairs_witness :
    (∀ a b : String, (a, b) ∈ column_pairs df6.cols false ↔
      (a ∈ df6.cols ∧ b ∈ df6.cols ∧ a ≠ b)) ∧
    (∀ a b : String, (a, b) ∈ column_pairs df6.cols false →
      (b, a) ∈ column_pairs df6.cols false) ∧
    (∀ c : String, (c, c) ∉ column_pairs df6.cols false) ∧
    ∀ e ∈ apply_on_column_pairs df6 f6 false,
      e.2.map Prod.fst = column_pairs df6.cols false :=
  C10_asymmetric_ordered_pairs df6 f6

/-- Row of the grouping grid: the `group_by` key (the stimulus) together
with one measurement list per column; `none` models a NaN entry. -/
structure GRow where
  key : String
  cells : List (List (Option ℚ))
  deriving DecidableEq, Repr

/-- Semantics of `pandas.Series.explode` on one list-valued entry: an empty
list contributes a single NaN row, any other list contributes its items. -/
def explode_cell (l : List (Option ℚ)) : List (Option ℚ) :=
  if l.isEmpty then [none] else l

/-- Pooling of one column over a list of rows, the effect of
`agg(list)` followed by `explode().to_list()` in `group_and_aggregate`. -/
def pool_column (rows : List GRow) (j : Nat) : List (Option ℚ) :=
  (rows.map (fun r => r.cells.getD j [])).flatMap explode_cell

/-- Kernel-computable lexicographic comparison on character lists. -/
def le_chars : List Char → List Char → Bool
  | [], _ => true
  | _ :: _, [] => false
  | a :: as, b :: bs => if a < b then true else if b < a then false else le_chars as bs

/-- Lexicographic comparison on strings. -/
def str_le (s t : String) : Bool := le_chars s.data t.data

/-- Insertion into a sorted list of keys. -/
def insert_sorted (a : String) : List String → List String
  | [] => [a]
  | b :: t => if str_le a b then a :: b :: t else b :: insert_sorted a t

/-- Insertion sort on key lists, the ascending key order produced by
`pandas.groupby`. -/
def sort_strings : List String → List String
  | [] => []
  | a :: t => insert_sorted a (sort_strings t)

/-- Group keys of a grid: the distinct `group_by` keys in ascending order,
as enumerated by `pandas.groupby(level=group_by)`. -/
def group_keys (data : List GRow) : List String :=
  sort_strings (data.map (fun r => r.key)).dedup

/-- Translated from `BaseAnalyzer.group_and_aggregate`
(src/Analysis/Analyzers/BaseAnalyzer.py, lines 144-156): pool the rows per
key; if a single group results return it, otherwise append a synthetic
"all" row pooling every original row.  The number of columns is passed
explicitly; the `group_by=None` identity branch is not needed by the claims
and not modelled. -/
def group_and_aggregate (ncols : Nat) (data : List GRow) : List GRow :=
  let ks := group_keys data
  let grouped := ks.map (fun k =>
    GRow.mk k ((List.range ncols).map (fun j =>
      pool_column (data.filter (fun r => decide (r.key = k))) j)))
  if grouped.length = 1 then grouped
  else grouped ++ [GRow.mk "all" ((List.range ncols).map (fun j => pool_column data j))]

/-- Inserting a key permutes consing it in front. -/
theorem insert_sorted_perm (a : String) : ∀ l, (insert_sorted a l).Perm (a :: l)
  | [] => List.Perm.refl _
  | b :: t => by
      unfold insert_sorted
      by_cases h : str_le a b = true
      · rw [if_pos h]
      · rw [if_neg h]
        exact ((insert_sorted_perm a t).cons b).trans (List.Perm.swap a b t)

/-- The insertion sort permutes its input. -/
theorem sort_strings_perm : ∀ l, (sort_strings l).Perm l
  | [] => List.Perm.refl _
  | a :: t => (insert_sorted_perm a (sort_strings t)).trans ((sort_strings_perm t).cons a)

/-- The group-key list has no duplicates. -/
theorem group_keys_nodup (data : List GRow) : (group_keys data).Nodup :=
  ((sort_strings_perm _).nodup_iff).mpr (List.nodup_dedup _)

/-- Every row's key occurs among the group keys. -/
theorem mem_group_keys {data : List GRow} {r : GRow} (h : r ∈ data) :
    r.key ∈ group_keys data :=
  ((sort_strings_perm _).mem_iff).mpr (List.mem_dedup.mpr (List.mem_map_of_mem _ h))

/-- On a nonempty grid whose rows all carry key `k`, deduplication of the
key column yields exactly `[k]`. -/
theorem dedup_keys_single (k : String) : ∀ (data : List GRow), data ≠ [] →
    (∀ r ∈ data, r.key = k) → (data.map (fun r => r.key)).dedup = [k] := by
  intro data
  induction data with
  | nil => intro h; exact absurd rfl h
  | cons r rest ih =>
      intro _ hall
      have hrk : r.key = k := hall r (List.mem_cons_self _ _)
      by_cases hrest : rest = []
      · subst hrest
        simp [hrk]
      · have hd := ih hrest (fun r2 h2 => hall r2 (List.mem_cons_of_mem _ h2))
        have hkmem : k ∈ rest.map (fun r2 => r2.key) := by
          rcases List.exists_mem_of_ne_nil rest hrest with ⟨r2, hr2⟩
          have h2 := hall r2 (List.mem_cons_of_mem _ hr2)
          exact List.mem_map.mpr ⟨r2, hr2, h2⟩
        rw [List.map_cons, hrk, List.dedup_cons_of_mem hkmem, hd]

/-- On a nonempty grid whose rows all carry key `k`, the group-key list is
exactly `[k]`. -/
theorem group_keys_single (k : String) (data : List GRow) (hne : data ≠ [])
    (hall : ∀ r ∈ data, r.key = k) : group_keys data = [k] := by
  unfold group_keys
  rw [dedup_keys_single k data hne hall]
  rfl

/-- Summing an indicator over a duplicate-free key list. -/
theorem sum_map_ite_key (a : String) (c : ℕ) : ∀ (ks : List String), ks.Nodup →
    (ks.map (fun k => if a = k then c else 0)).sum = if a ∈ ks then c else 0 := by
  intro ks
  induction ks with
  | nil => intro _; simp
  | cons k0 kt ih =>
      intro hnd
      rw [List.nodup_cons] at hnd
      by_cases hak : a = k0
      · subst hak
        have hzero : (kt.map (fun k => if a = k then c else 0)).sum = 0 := by
          have hz : ∀ k ∈ kt, (if a = k then c else 0) = (fun _ : String => (0 : ℕ)) k := by
            intro k hk
            rw [if_neg]
            intro heq
            exact hnd.1 (heq ▸ hk)
          rw [List.map_congr_left hz]
          simp
        simp [List.sum_cons, hzero]
      · rw [List.map_cons, List.sum_cons, if_neg hak, ih hnd.2]
        simp [List.mem_cons, hak]

/-- Sum of a pointwise sum of two functions splits. -/
theorem sum_map_add_split {β : Type} (u v : β → ℕ) : ∀ (l : List β),
    (l.map (fun x => u x + v x)).sum = (l.map u).sum + (l.map v).sum := by
  intro l
  induction l with
  | nil => simp
  | cons x t ih =>
      simp only [List.map_cons, List.sum_cons, ih]
      omega

/-- Partition identity: summing a row statistic per key group over a
duplicate-free covering key list equals summing it over the whole grid. -/
theorem sum_filter_partition (g : GRow → ℕ) :
    ∀ (data : List GRow) (ks : List String), ks.Nodup → (∀ r ∈ data, r.key ∈ ks) →
    (ks.map (fun k => ((data.filter (fun r => decide (r.key = k))).map g).sum)).sum
      = (data.map g).sum := by
  intro data
  induction data with
  | nil =>
      intro ks _ _
      simp
  | cons r rest ih =>
      intro ks hnd hcov
      have hstep : ∀ k ∈ ks,
          (((r :: rest).filter (fun r2 => decide (r2.key = k))).map g).sum =
          (fun k2 => (if r.key = k2 then g r else 0) +
            ((rest.filter (fun r2 => decide (r2.key = k2))).map g).sum) k := by
        intro k _
        by_cases h : r.key = k
        · simp [List.filter_cons, h]
        · simp [List.filter_cons, h]
      rw [List.map_congr_left hstep]
      rw [sum_map_add_split (fun k2 => if r.key = k2 then g r else 0)
        (fun k2 => ((rest.filter (fun r2 => decide (r2.key = k2))).map g).sum) ks]
      rw [sum_map_ite_key r.key (g r) ks hnd]
      rw [if_pos (hcov r (List.mem_cons_self _ _))]
      rw [ih ks hnd (fun r2 h2 => hcov r2 (List.mem_cons_of_mem _ h2))]
      simp [List.map_cons, List.sum_cons]

/-- Length of a pooled column as a sum of per-row exploded cell lengths. -/
theorem pool_column_length (rows : List GRow) (j : ℕ) :
    (pool_column rows j).length =
      (rows.map (fun r => (explode_cell (r.cells.getD j [])).length)).sum := by
  simp [pool_column, List.length_flatMap, List.map_map, Function.comp_def]

/-- Reading a mapped range at an in-bounds index. -/
theorem getD_range_map {β : Type} (f : ℕ → β) (n j : ℕ) (d : β) (h : j < n) :
    ((List.range n).map f).getD j d = f j := by
  have hlen : j < ((List.range n).map f).length := by simpa using h
  rw [List.getD_eq_getElem _ _ hlen, List.getElem_map, List.getElem_range]

/-- C5: on a nonempty grid whose rows all share one group key the function
returns exactly that one pooled row and no "all" row; on a grid spanning at
least two distinct keys it returns one pooled row per key followed by
exactly one synthetic "all" row whose pooled list, in every column, is as
long as the per-key pooled lists of that column combined. -/
theorem C5_group_and_aggregate_shape (ncols : Nat) (data : List GRow) :
    (∀ k, data ≠ [] → (∀ r ∈ data, r.key = k) →
      ∃ cells, group_and_aggregate ncols data = [GRow.mk k cells]) ∧
    (2 ≤ (group_keys data).length →
      ∃ grouped allrow, group_and_aggregate ncols data = grouped ++ [allrow] ∧
        grouped.length = (group_keys data).length ∧
        allrow.key = "all" ∧
        ∀ j, j < ncols →
          (allrow.cells.getD j []).length =
            (grouped.map (fun r => (r.cells.getD j []).length)).sum) := by
  constructor
  · intro k hne hall
    have hks : group_keys data = [k] := group_keys_single k data hne hall
    refine ⟨(List.range ncols).map (fun j =>
      pool_column (data.filter (fun r => decide (r.key = k))) j), ?_⟩
    simp [group_and_aggregate, hks]
  · intro h2
    have hne1 : ((group_keys data).map (fun k =>
        GRow.mk k ((List.range ncols).map (fun j =>
          pool_column (data.filter (fun r => decide (r.key = k))) j)))).length ≠ 1 := by
      rw [List.length_map]
      omega
    refine ⟨(group_keys data).map (fun k => GRow.mk k ((List.range ncols).map (fun j =>
        pool_column (data.filter (fun r => decide (r.key = k))) j))),
      GRow.mk "all" ((List.range ncols).map (fun j => pool_column data j)), ?_, ?_, rfl, ?_⟩
    · simp only [group_and_aggregate]
      rw [if_neg hne1]
    · rw [List.length_map]
    · intro j hj
      show (((List.range ncols).map (fun j2 => pool_column data j2)).getD j []).length = _
      rw [getD_range_map _ ncols j [] hj, pool_column_length, List.map_map]
      have hcongr : ∀ k ∈ group_keys data,
          ((fun (r : GRow) => (r.cells.getD j []).length) ∘ fun k2 =>
            GRow.mk k2 ((List.range ncols).map (fun j2 =>
              pool_column (data.filter (fun r => decide (r.key = k2))) j2))) k =
          (fun k2 => ((data.filter (fun r => decide (r.key = k2))).map
            (fun r => (explode_cell (r.cells.getD j [])).length)).sum) k := by
        intro k _
        simp only [Function.comp_def]
        rw [getD_range_map _ ncols j [] hj, pool_column_length]
      rw [List.map_congr_left hcongr]
      exact (sum_filter_partition (fun r => (explode_cell (r.cells.getD j [])).length)
        data (group_keys data) (group_keys_nodup data)
        (fun r hr => mem_group_keys hr)).symm

/-- Single-stimulus sample grid for the C5 witness. -/
def dataS : List GRow := [GRow.mk "s1" [[some 1, some 2], []]]

/-- Two-stimulus sample grid for the C5 witness: two columns, one cell
empty so the exploded NaN contributes to the pooled lengths. -/
def dataM : List GRow :=
  [GRow.mk "s1" [[some 1, some 2], []], GRow.mk "s2" [[some 3], [some 4]]]

/-- C5 witness: the shape statement instantiated on a one-stimulus grid and
on a two-stimulus grid. -/
theorem C5_group_and_aggregate_shape_witness :
    (∃ cells, group_and_aggregate 2 dataS = [GRow.mk "s1" cells]) ∧
    (∃ grouped allrow, group_and_aggregate 2 dataM = grouped ++ [allrow] ∧
      grouped.length = (group_keys dataM).length ∧
      allrow.key = "all" ∧
      ∀ j, j < 2 →
        (allrow.cells.getD j []).length =
          (grouped.map (fun r => (r.cells.getD j []).length)).sum) :=
  ⟨(C5_group_and_aggregate_shape 2 dataS).1 "s1" (by decide) (by decide),
   (C5_group_and_aggregate_shape 2 dataM).2 (by decide)⟩

/-- Modelled from the spec: the number of labels in the closed event-label
set (`len(cnst.EVENT_LABELS)`; `Config/constants.py` is not under `src/`). -/
def num_events : Nat := 6

/-- Modelled from the spec: `parse_event_label` maps each label of the
closed set to its integer class id (`GazeEvents/helpers.py` is not under
`src/`; any injective enumeration is faithful). -/
def parse_event_label : EventLabel → Fin num_events
  | .fixation => ⟨0, by decide⟩
  | .saccade => ⟨1, by decide⟩
  | .blink => ⟨2, by decide⟩
  | .pso => ⟨3, by decide⟩
  | .smoothPursuit => ⟨4, by decide⟩
  | .undefined => ⟨5, by decide⟩

/-- Adjacent-pair transition counting over parsed class ids, the loop of
`_transition_counts` (src/Analysis/metrics.py, lines 88-96). -/
def transition_counts_ids : List (Fin num_events) → Fin num_events → Fin num_events → ℕ
  | a :: b :: rest, i, j =>
      (if a = i ∧ b = j then 1 else 0) + transition_counts_ids (b :: rest) i j
  | _, _, _ => 0

/-- Translated from `_transition_counts` (src/Analysis/metrics.py): parse
the labels, then count each label immediately followed by each label. -/
def transition_counts (seq : List EventLabel) (i j : Fin num_events) : ℕ :=
  transition_counts_ids (seq.map parse_event_label) i j

/-- Row sum of the transition-count matrix (`counts.sum(axis=1)`). -/
def row_sum (seq : List EventLabel) (i : Fin num_events) : ℕ :=
  ∑ j : Fin num_events, transition_counts seq i j

/-- Translated from `_transition_matrix` (src/Analysis/metrics.py, lines
76-85): `np.divide(counts, row_sum, out=zeros, where=row_sum != 0)` divides
each row by its sum and leaves rows with zero sum all-zero. -/
def transition_matrix (seq : List EventLabel) (i j : Fin num_events) : ℚ :=
  if row_sum seq i = 0 then 0
  else (transition_counts seq i j : ℚ) / (row_sum seq i : ℚ)

/-- C7: each transition-matrix row is proportional to its count row; a row
with at least one observed outgoing transition (positive row sum) sums to
exactly 1; a row with none is all-zero rather than renormalized. -/
theorem C7_transition_matrix_rows (seq : List EventLabel) (i : Fin num_events) :
    (∀ j, transition_matrix seq i j * (row_sum seq i : ℚ) =
      (transition_counts seq i j : ℚ)) ∧
    (0 < row_sum seq i ↔ ∃ j, 0 < transition_counts seq i j) ∧
    (0 < row_sum seq i → ∑ j : Fin num_events, transition_matrix seq i j = 1) ∧
    (row_sum seq i = 0 → ∀ j, transition_matrix seq i j = 0) := by
  refine ⟨?_, ?_, ?_, ?_⟩
  · intro j
    by_cases h : row_sum seq i = 0
    · have hle : transition_counts seq i j ≤ row_sum seq i :=
        Finset.single_le_sum (f := fun j2 => transition_counts seq i j2)
          (fun _ _ => Nat.zero_le _) (Finset.mem_univ j)
      have hc : transition_counts seq i j = 0 := by omega
      simp [transition_matrix, h, hc]
    · rw [transition_matrix, if_neg h]
      exact div_mul_cancel₀ _ (Nat.cast_ne_zero.mpr h)
  · rw [row_sum]
    constructor
    · intro hpos
      by_contra hno
      push_neg at hno
      have hz : ∀ j, transition_counts seq i j = 0 := fun j => Nat.le_zero.mp (hno j)
      have : (∑ j : Fin num_events, transition_counts seq i j) = 0 :=
        Finset.sum_eq_zero (fun j _ => hz j)
      omega
    · rintro ⟨j, hj⟩
      calc 0 < transition_counts seq i j := hj
        _ ≤ ∑ j2 : Fin num_events, transition_counts seq i j2 :=
          Finset.single_le_sum (f := fun j2 => transition_counts seq i j2)
            (fun _ _ => Nat.zero_le _) (Finset.mem_univ j)
  · intro hpos
    have h : row_sum seq i ≠ 0 := Nat.pos_iff_ne_zero.mp hpos
    calc ∑ j : Fin num_events, transition_matrix seq i j
        = ∑ j : Fin num_events, (transition_counts seq i j : ℚ) / (row_sum seq i : ℚ) := by
          refine Finset.sum_congr rfl (fun j _ => ?_)
          rw [transition_matrix, if_neg h]
      _ = (∑ j : Fin num_events, (transition_counts seq i j : ℚ)) / (row_sum seq i : ℚ) :=
          (Finset.sum_div _ _ _).symm
      _ = ((row_sum seq i : ℕ) : ℚ) / (row_sum seq i : ℚ) := by
          rw [row_sum]
          push_cast
          rfl
      _ = 1 := div_self (Nat.cast_ne_zero.mpr h)
  · intro h j
    simp [transition_matrix, h]

/-- Sample label sequence with transitions fixation → saccade → fixation. -/
def seq7 : List EventLabel := [.fixation, .saccade, .fixation]

/-- C7 witness: on the concrete sequence [fixation, saccade, fixation] the
fixation row has a positive sum and sums to 1, while the undefined row has
no outgoing transition and stays all-zero. -/
theorem C7_transition_matrix_rows_witness :
    0 < row_sum seq7 (parse_event_label .fixation) ∧
    (∑ j : Fin num_events, transition_matrix seq7 (parse_event_label .fixation) j = 1) ∧
    row_sum seq7 (parse_event_label .undefined) = 0 ∧
    ∀ j, transition_matrix seq7 (parse_event_label .undefined) j = 0 :=
  ⟨by decide,
   (C7_transition_matrix_rows seq7 (parse_event_label .fixation)).2.2.1 (by decide),
   by decide,
   (C7_transition_matrix_rows seq7 (parse_event_label .undefined)).2.2.2 (by decide)⟩

/-- Modelled from the spec: the Levenshtein edit distance computed by the
third-party `Levenshtein.distance` (unit-cost insertions, deletions and
substitutions). -/
def lev_dist {α : Type} [DecidableEq α] : List α → List α → ℕ
  | [], ys => ys.length
  | xs, [] => xs.length
  | x :: xs, y :: ys =>
      if x = y then lev_dist xs ys
      else 1 + min (lev_dist xs (y :: ys)) (min (lev_dist (x :: xs) ys) (lev_dist xs ys))
termination_by xs ys => xs.length + ys.length
decreasing_by
  all_goals simp [List.length_cons]
  all_goals omega

/-- Edit distance is invariant under an injective relabelling. -/
theorem lev_dist_map {α β : Type} [DecidableEq α] [DecidableEq β] (f : α → β)
    (hf : Function.Injective f) :
    ∀ (xs ys : List α), lev_dist (xs.map f) (ys.map f) = lev_dist xs ys
  | [], ys => by simp [lev_dist]
  | x :: xs, [] => by simp [lev_dist]
  | x :: xs, y :: ys => by
      simp only [List.map_cons]
      by_cases hxy : x = y
      · rw [lev_dist, if_pos (congrArg f hxy), lev_dist_map f hf xs ys]
        rw [lev_dist, if_pos hxy]
      · rw [lev_dist, if_neg (fun h => hxy (hf h))]
        simp only [← List.map_cons]
        rw [lev_dist_map f hf xs (y :: ys), lev_dist_map f hf (x :: xs) ys,
          lev_dist_map f hf xs ys]
        rw [lev_dist, if_neg hxy]
termination_by xs ys => xs.length + ys.length
decreasing_by
  all_goals simp [List.length_cons]
  all_goals omega

/-- Translated from `levenshtein_distance` (src/Analysis/metrics.py, lines
27-34): parse the labels, take the edit distance, and divide by the longer
length when normalization is requested. -/
def levenshtein_distance (gt pred : List EventLabel) (do_normalization : Bool) : ℚ :=
  let g := gt.map parse_event_label
  let p := pred.map parse_event_label
  let d := lev_dist g p
  if do_normalization then (d : ℚ) / (max g.length p.length : ℚ) else (d : ℚ)

/-- The class-id parsing is injective. -/
theorem parse_event_label_injective : Function.Injective parse_event_label := by
  intro a b h
  cases a <;> cases b <;> first | rfl | (cases h)

/-- C9: the normalized Levenshtein distance of two nonempty label
sequences is the raw edit distance divided by the longer length, and on
["F","S","F"] versus ["F","F","F"] it equals 1/3. -/
theorem C9_levenshtein_normalized :
    (∀ gt pred : List EventLabel, gt ≠ [] → pred ≠ [] →
      levenshtein_distance gt pred true =
        (lev_dist gt pred : ℚ) / (max gt.length pred.length : ℚ)) ∧
    levenshtein_distance [.fixation, .saccade, .fixation]
      [.fixation, .fixation, .fixation] true = 1 / 3 := by
  have hmap : ∀ gt pred : List EventLabel,
      lev_dist (gt.map parse_event_label) (pred.map parse_event_label) =
        lev_dist gt pred :=
    fun gt pred => lev_dist_map parse_event_label parse_event_label_injective gt pred
  constructor
  · intro gt pred _ _
    simp only [levenshtein_distance, hmap, List.length_map, if_true]
  · have hlev : lev_dist [EventLabel.fixation, .saccade, .fixation]
        [EventLabel.fixation, .fixation, .fixation] = 1 := by
      simp [lev_dist]
    simp only [levenshtein_distance, hmap, hlev, List.length_map, if_true]
    norm_num

/-- C9 witness: the normalization identity applied to concrete nonempty
label sequences. -/
theorem C9_levenshtein_normalized_witness :
    levenshtein_distance [.fixation, .saccade] [.saccade] true =
      (lev_dist [EventLabel.fixation, EventLabel.saccade] [EventLabel.saccade] : ℚ) /
        (max [EventLabel.fixation, EventLabel.saccade].length
          [EventLabel.saccade].length : ℚ) :=
  C9_levenshtein_normalized.1 [.fixation, .saccade] [.saccade] (by decide) (by decide)

/-- The two-sample tests the comparator can dispatch to. -/
inductive TestFunc where
  | mannwhitneyu
  | ranksums
  deriving DecidableEq, Repr

/-- Translated from `event_feature_statistical_comparison` line 167:
`test_name.lower().replace("_", " ").replace("-", " ").strip()`. -/
def normalize_test_name (s : String) : String :=
  String.mk (trim_chars (replace_char '-' ' ' (replace_char '_' ' ' (lower_chars s.data))))

/-- Synonyms accepted for the Mann-Whitney U test (line 168). -/
def mw_names : List String :=
  ["u", "u test", "mann whitney", "mann whitney u", "mannwhitneyu"]

/-- Synonyms accepted for the Wilcoxon rank-sum test (line 170). -/
def rs_names : List String :=
  ["rank sum", "ranksum", "ranksums", "wilcoxon rank sum"]

/-- Name dispatch of `event_feature_statistical_comparison` (lines
167-173): the `ValueError` on an unrecognised name becomes `Except.error`. -/
def choose_test_func (s : String) : Except String TestFunc :=
  let t := normalize_test_name s
  if t ∈ mw_names then .ok .mannwhitneyu
  else if t ∈ rs_names then .ok .ranksums
  else .error "Unknown test name"

/-- Translated from `event_feature_statistical_comparison`
(src/Analysis/Analyzers/BaseAnalyzer.py, lines 158-195): dispatch on the
test name, drop NaN measurements from every cell, and run the chosen test
on every unordered column pair.  The scipy test implementations are
abstracted as the external parameter `interp`, and the final presentation
step (remapping statistics and p-values into reordered columns, lines
179-195) is not modelled. -/
def event_feature_statistical_comparison
    (interp : TestFunc → List ℚ → List ℚ → ℚ × ℚ) (feature_df : DFrame)
    (test_name : String) :
    Except String (List (Nat × List ((String × String) × Option (ℚ × ℚ)))) :=
  match choose_test_func test_name with
  | .error e => .error e
  | .ok tf =>
    let filtered : DFrame := DFrame.mk feature_df.rows feature_df.cols
      (fun i c => ((feature_df.cellv i c).filterMap id).map some)
    .ok (apply_on_column_pairs filtered
      (fun v1 v2 => interp tf (v1.filterMap id) (v2.filterMap id)) true)

/-- C8: the comparator resolves the test name through case- and
punctuation-insensitive normalization against the two synonym sets, and for
every name outside both sets it fails with the configuration error before
touching any data (for every test interpretation and every grid). -/
theorem C8_test_name_dispatch (s : String) :
    (choose_test_func s = .ok .mannwhitneyu ↔ normalize_test_name s ∈ mw_names) ∧
    (choose_test_func s = .ok .ranksums ↔ normalize_test_name s ∈ rs_names) ∧
    ((∃ e, choose_test_func s = .error e) ↔
      (normalize_test_name s ∉ mw_names ∧ normalize_test_name s ∉ rs_names)) ∧
    ∀ interp df, normalize_test_name s ∉ mw_names → normalize_test_name s ∉ rs_names →
      event_feature_statistical_comparison interp df s = .error "Unknown test name" := by
  have hdisj : ∀ x ∈ rs_names, x ∉ mw_names := by decide
  by_cases h1 : normalize_test_name s ∈ mw_names
  · have h2 : normalize_test_name s ∉ rs_names := fun hin => hdisj _ hin h1
    refine ⟨by simp [choose_test_func, h1], by simp [choose_test_func, h1, h2],
      by simp [choose_test_func, h1], ?_⟩
    intro interp df ha _
    exact absurd h1 ha
  · by_cases h2 : normalize_test_name s ∈ rs_names
    · refine ⟨by simp [choose_test_func, h1, h2], by simp [choose_test_func, h1, h2],
        by simp [choose_test_func, h1, h2], ?_⟩
      intro interp df _ hb
      exact absurd h2 hb
    · refine ⟨by simp [choose_test_func, h1, h2], by simp [choose_test_func, h1, h2],
        by simp [choose_test_func, h1, h2], ?_⟩
      intro interp df _ _
      simp [event_feature_statistical_comparison, choose_test_func, h1, h2]

/-- C8 witness: the dispatch characterisation at the concrete name
"Mann-Whitney U", whose normalization lies in the Mann-Whitney synonym
set. -/
theorem C8_test_name_dispatch_witness :
    ((choose_test_func "Mann-Whitney U" = .ok .mannwhitneyu ↔
        normalize_test_name "Mann-Whitney U" ∈ mw_names) ∧
      (choose_test_func "Mann-Whitney U" = .ok .ranksums ↔
        normalize_test_name "Mann-Whitney U" ∈ rs_names) ∧
      ((∃ e, choose_test_func "Mann-Whitney U" = .error e) ↔
        (normalize_test_name "Mann-Whitney U" ∉ mw_names ∧
         normalize_test_name "Mann-Whitney U" ∉ rs_names)) ∧
      ∀ interp df, normalize_test_name "Mann-Whitney U" ∉ mw_names →
        normalize_test_name "Mann-Whitney U" ∉ rs_names →
        event_feature_statistical_comparison interp df "Mann-Whitney U" =
          .error "Unknown test name") ∧
    normalize_test_name "Mann-Whitney U" ∈ mw_names :=
  ⟨C8_test_name_dispatch "Mann-Whitney U", by decide⟩
